import Mathlib

/-!
Verification of the transcript-to-clip pipeline of `audio2anki` (src/main.py).

Shallow embedding conventions:
* Python strings are embedded as `List Char` where their contents matter
  (transcript texts, timestamp fields) and as `String` for generated
  filenames and note fields.
* Times are `Int` milliseconds (`int(float(...))` in the source).
* The audio library (pydub) is embedded symbolically: the sequence of
  operations applied to a clip is recorded as a `Clip` syntax tree.
* The digest function `hashlib.md5` is an external library call; it is
  taken as a parameter `md5 : List Nat → Nat` (the 128-bit digest of a
  byte list), while its `hexdigest` rendering is embedded concretely.
* The clip rendering / mp3 export of a segment depends (for a fixed audio
  file and fixed options) only on the parsed `start_ms`/`end_ms`; it is
  taken as a parameter `render : Int → Int → List Nat` producing the
  exported bytes.
-/

/-- Python `str.strip()` from the left: drop leading whitespace. -/
def lstrip (s : List Char) : List Char := s.dropWhile Char.isWhitespace

/-- Python `str.strip()` from the right: drop trailing whitespace. -/
def rstrip (s : List Char) : List Char :=
  (s.reverse.dropWhile Char.isWhitespace).reverse

/-- Python `str.strip()`: drop whitespace at both ends. -/
def strip (s : List Char) : List Char := rstrip (lstrip s)

/-- `s.endswith(".") or s.endswith("!") or s.endswith("?")` on a raw string. -/
def sentenceEnd (s : List Char) : Bool :=
  s.getLast? == some '.' || s.getLast? == some '!' || s.getLast? == some '?'

/-- `is_complete_sentence` from src/main.py lines 275-277: strip the text and
test whether it ends with `.`, `!` or `?`. -/
def is_complete_sentence (s : List Char) : Bool := sentenceEnd (strip s)

/-- One transcript row `{start, end, text}`.  The merge loop never inspects
the `start`/`end` fields, so their type `τ` is a parameter: raw TSV fields
are `List Char`, parsed times are `Int`. -/
structure Fragment (τ : Type) where
  start : τ
  end_ : τ
  text : List Char
deriving DecidableEq, Repr

/-- Texts joined by single inserted spaces: exactly the accumulation
`merged_text += " " + next_row["text"].strip()` of the merge loop. -/
def sepJoin : List (List Char) → List Char
  | [] => []
  | t :: ts => ts.foldl (fun a u => a ++ ' ' :: u) t

/-- The inner `while` loop of the merge pass (src/main.py lines 286-290):
keep absorbing the next row while the accumulated text is not a complete
sentence and a next row exists.  Returns the finished accumulator and the
unconsumed rows. -/
def mergeRun {τ : Type} : Fragment τ → List (Fragment τ) → Fragment τ × List (Fragment τ)
  | acc, [] => (acc, [])
  | acc, next :: rest =>
    if is_complete_sentence acc.text then (acc, next :: rest)
    else mergeRun ⟨acc.start, next.end_, acc.text ++ ' ' :: strip next.text⟩ rest

/-- The outer `while i < len(rows)` loop of the merge pass
(src/main.py lines 279-295): repeatedly seed an accumulator from the next
row (with `text` stripped) and run the inner loop. -/
def merge {τ : Type} : List (Fragment τ) → List (Fragment τ)
  | [] => []
  | f :: rest =>
    (mergeRun ⟨f.start, f.end_, strip f.text⟩ rest).1 ::
      merge (mergeRun ⟨f.start, f.end_, strip f.text⟩ rest).2
termination_by l => l.length
decreasing_by
  have h : ∀ (l : List (Fragment τ)) (acc : Fragment τ),
      (mergeRun acc l).2.length ≤ l.length := by
    intro l
    induction l with
    | nil => intro a; simp [mergeRun]
    | cons x xs ih =>
      intro acc
      simp only [mergeRun]
      split
      · simp
      · exact (ih _).trans (Nat.le_succ _)
  simp only [List.length_cons]
  exact Nat.lt_succ_of_le (h _ _)

/-- The clip extraction window of a segment (src/main.py lines 409-415):
`extended_end = min(len(audio), end_ms + 1000)`; the slice starts at
`start_ms - 1000` when `start_ms >= 1000`, else at `start_ms`. -/
def clipWindow (start_ms end_ms audio_len : Int) : Int × Int :=
  let extended_end := min audio_len (end_ms + 1000)
  if 1000 ≤ start_ms then (start_ms - 1000, extended_end)
  else (start_ms, extended_end)

/-- Symbolic pydub audio value: the tree of operations applied to build a
clip.  `slice a b` is `audio[a:b]`, `app` is pydub `+` (concatenation),
`tone f d` is `Sine(f).to_audio_segment(duration=d)`, `stretch r c` is
`change_speed_librosa(c, r)`. -/
inductive Clip where
  | slice (startMs endMs : Int)
  | fadeIn (durMs : Int) (c : Clip)
  | fadeOut (durMs : Int) (c : Clip)
  | app (a b : Clip)
  | tone (freqHz durMs : Int)
  | stretch (rate : ℚ) (c : Clip)
deriving DecidableEq, Repr

/-- The clip built for one segment, src/main.py lines 409-421: slice with the
extended window, fades (fade-in only when `start_ms >= 1000`), the 50 ms
1000 Hz click tone prepended and appended unconditionally, then the optional
speed change when `speed_factor != 1.0`. -/
def buildClip (start_ms end_ms audio_len : Int) (speed_factor : ℚ) : Clip :=
  let extended_end := min audio_len (end_ms + 1000)
  let faded :=
    if 1000 ≤ start_ms then
      Clip.fadeOut 1000 (Clip.fadeIn 1000 (Clip.slice (start_ms - 1000) extended_end))
    else
      Clip.fadeOut 1000 (Clip.slice start_ms extended_end)
  let click_tone := Clip.tone 1000 50
  let toned := Clip.app (Clip.app click_tone faded) click_tone
  if speed_factor ≠ 1 then Clip.stretch speed_factor toned else toned

/-- Durations of all fade-ins occurring in a clip tree. -/
def fadeInDurs : Clip → List Int
  | .slice _ _ => []
  | .tone _ _ => []
  | .fadeIn d c => fadeInDurs c ++ [d]
  | .fadeOut _ c => fadeInDurs c
  | .app a b => fadeInDurs a ++ fadeInDurs b
  | .stretch _ c => fadeInDurs c

/-- Durations of all fade-outs occurring in a clip tree. -/
def fadeOutDurs : Clip → List Int
  | .slice _ _ => []
  | .tone _ _ => []
  | .fadeIn _ c => fadeOutDurs c
  | .fadeOut d c => fadeOutDurs c ++ [d]
  | .app a b => fadeOutDurs a ++ fadeOutDurs b
  | .stretch _ c => fadeOutDurs c

/-- All `(frequency, duration)` tones occurring in a clip tree, in order. -/
def toneList : Clip → List (Int × Int)
  | .slice _ _ => []
  | .tone f d => [(f, d)]
  | .fadeIn _ c => toneList c
  | .fadeOut _ c => toneList c
  | .app a b => toneList a ++ toneList b
  | .stretch _ c => toneList c

/-- Remove the outer speed-change wrapper, if any. -/
def stripStretch : Clip → Clip
  | .stretch _ c => stripStretch c
  | c => c

/-- Playback speed factor from the three CLI flags, src/main.py lines 96-103:
`if slowest: 0.25 elif slower: 0.5 elif slow: 0.75 else 1.0`. -/
def speed_factor (slow slower slowest : Bool) : ℚ :=
  if slowest then 0.25 else if slower then 0.5 else if slow then 0.75 else 1.0

/-- The set of speed factors requested by the flags (spec side: used to state
that the code picks the smallest requested factor). -/
def requestedFactors (slow slower slowest : Bool) : List ℚ :=
  (if slow then [(0.75 : ℚ)] else []) ++ (if slower then [(0.5 : ℚ)] else []) ++
    (if slowest then [(0.25 : ℚ)] else [])

/-- One lowercase hexadecimal digit character. -/
def hexChar (n : Nat) : Char :=
  if n < 10 then Char.ofNat (48 + n) else Char.ofNat (87 + n)

/-- The low `k` hexadecimal digits of `n`, most significant first. -/
def hexChars : Nat → Nat → List Char
  | 0, _ => []
  | k + 1, n => hexChars k (n / 16) ++ [hexChar (n % 16)]

/-- The 16 lowercase hexadecimal digit characters. -/
def hexAlphabet : List Char := "0123456789abcdef".data

/-- `hashlib.md5(data).hexdigest()`: the 32-character lowercase hexadecimal
rendering of the 128-bit digest value (the digest function itself is the
parameter `md5`). -/
def hexdigest (d : Nat) : String := String.mk (hexChars 32 d)

/-- `clip_filename = f"clip_{clip_hash}.mp3"` (src/main.py line 427). -/
def clipFilename (md5 : List Nat → Nat) (data : List Nat) : String :=
  "clip_" ++ hexdigest (md5 data) ++ ".mp3"

/-- The clip directory on disk: an association list from filename to the
bytes stored under that name. -/
abbrev Dir := List (String × List Nat)

/-- The content-addressed store step, src/main.py lines 423-431: derive the
filename from the digest of the exported bytes and write the file only if
it does not already exist. -/
def store (md5 : List Nat → Nat) (data : List Nat) (dir : Dir) : String × Dir :=
  let fn := clipFilename md5 data
  if (dir.lookup fn).isSome then (fn, dir) else (fn, dir ++ [(fn, data)])

/-- The four note fields of src/main.py lines 433-441:
`[f"[sound:{clip_filename}]", text, "", ""]`. -/
def mkNote (fn : String) (text : List Char) : List String :=
  ["[sound:" ++ fn ++ "]", String.mk text, "", ""]

/-- Pipeline state while the segment loop runs: the clip directory and the
notes added to the deck so far. -/
structure PState where
  dir : Dir
  notes : List (List String)
deriving DecidableEq, Repr

/-- Digits-to-value accumulation, `48 = '0'.toNat`. -/
def natOfDigits (l : List Char) : Nat :=
  l.foldl (fun a c => a * 10 + (c.toNat - 48)) 0

/-- Magnitude part of a Python decimal numeral: digits with an optional
single `.`; truncation toward zero keeps only the integer-part digits. -/
def parseAbs (u : List Char) : Option Nat :=
  let ip := u.takeWhile (fun c => c != '.')
  let rest := u.dropWhile (fun c => c != '.')
  let fp := rest.drop 1
  if ip.all Char.isDigit && fp.all Char.isDigit && (!ip.isEmpty || !fp.isEmpty) then
    some (natOfDigits ip)
  else none

/-- Model of Python `int(float(s))` (src/main.py lines 402-403) restricted to
fixed-point decimal numerals: surrounding whitespace is ignored, an optional
sign is followed by digits with an optional single decimal point, and the
value is truncated toward zero.  `none` models the `ValueError` raised for
non-numeric text.  (Exponent and `inf`/`nan` spellings of Python floats are
outside this model.)  Note that negative numerals parse successfully. -/
def parseTime (s : List Char) : Option Int :=
  match strip s with
  | '-' :: r => (parseAbs r).map (fun n => -(n : Int))
  | '+' :: r => (parseAbs r).map (fun n => (n : Int))
  | r => (parseAbs r).map (fun n => (n : Int))

/-- The body of the segment loop, src/main.py lines 400-442, with the audio
rendering abstracted as `render`: parse the two timestamps (a failure skips
the row and leaves the state unchanged, the `except ValueError: continue`),
otherwise store the rendered bytes and append the note. -/
def step (md5 : List Nat → Nat) (render : Int → Int → List Nat)
    (st : PState) (row : Fragment (List Char)) : PState :=
  match parseTime row.start, parseTime row.end_ with
  | some start_ms, some end_ms =>
    let data := render start_ms end_ms
    let sres := store md5 data st.dir
    { dir := sres.2, notes := st.notes ++ [mkNote sres.1 row.text] }
  | _, _ => st

/-- The whole segment loop over the merged rows. -/
def processRows (md5 : List Nat → Nat) (render : Int → Int → List Nat)
    (rows : List (Fragment (List Char))) (st : PState) : PState :=
  rows.foldl (step md5 render) st

/-- The note a row contributes, if its timestamps parse. -/
def noteOf (md5 : List Nat → Nat) (render : Int → Int → List Nat)
    (row : Fragment (List Char)) : Option (List String) :=
  match parseTime row.start, parseTime row.end_ with
  | some s, some e => some (mkNote (clipFilename md5 (render s e)) row.text)
  | _, _ => none

/-- `sorted(os.listdir(audio_dir))` restricted to `.mp3` names: every file
name currently in the clip directory, in sorted order. -/
def sortedMp3Names (dir : Dir) : List String :=
  ((dir.map Prod.fst).insertionSort (· ≤ ·)).filter (fun f => f.endsWith ".mp3")

/-- `media_files`, src/main.py lines 444-448: all `.mp3` names currently in
the clip directory, sorted, joined with the directory path. -/
def media_files (audio_dir : String) (dir : Dir) : List String :=
  (sortedMp3Names dir).map (fun f => audio_dir ++ "/" ++ f)

/-- A segment `s` was built from the contiguous fragment run `r`: its start
is the first fragment's start, its end the last fragment's end, and its text
the space-joined stripped texts of the run. -/
def runSpec {τ : Type} (s : Fragment τ) (r : List (Fragment τ)) : Prop :=
  ∃ f₀ fz, r.head? = some f₀ ∧ r.getLast? = some fz ∧
    s.start = f₀.start ∧ s.end_ = fz.end_ ∧
    s.text = sepJoin (r.map (fun f => strip f.text))

/-! ## Claim C3: the clip window formula -/

/-- C3: for every segment with parseable start/end and every total duration,
the window is exactly `extractEnd = min(totalDuration, end + 1000)` and
`extractStart = start - 1000` when `start ≥ 1000`, else `start`; in
particular segment `{start:5000, end:6000}` with total duration `6200`
yields the window `(4000, 6200)`. -/
theorem clipWindow_formula :
    (∀ start_ms end_ms audio_len : Int,
      clipWindow start_ms end_ms audio_len =
        (if 1000 ≤ start_ms then start_ms - 1000 else start_ms,
         min audio_len (end_ms + 1000))) ∧
    clipWindow 5000 6000 6200 = (4000, 6200) := by
  refine ⟨fun s e t => ?_, by decide⟩
  unfold clipWindow
  split <;> simp_all

/-! ## Claim C4: window bounds -/

/-- C4 counterexample: the timestamps `-500` and `0` parse as numeric
milliseconds, yet the resolved window has `extractStart = -500 < 0` (even
though `-500 < 1000`); moreover the in-range segment `{start:500, end:500}`
with total duration `500` yields the degenerate window `(500, 500)`, so
`extractStart < extractEnd` also fails. -/
theorem clipWindow_bounds_counterexample :
    parseTime ['-', '5', '0', '0'] = some (-500) ∧
    parseTime ['0'] = some 0 ∧
    (clipWindow (-500) 0 1000).1 = -500 ∧
    (clipWindow (-500) 0 1000).1 < 0 ∧
    ¬ (clipWindow 500 500 500).1 < (clipWindow 500 500 500).2 := by
  decide

/-- C4 (amended): for every segment with `0 ≤ start ≤ end` and
`start < totalDuration`, the resolved window satisfies
`0 ≤ extractStart < extractEnd ≤ totalDuration`; in particular a
non-negative `start < 1000` never produces a negative `extractStart`. -/
theorem clipWindow_bounds (s e total : Int) (h0 : 0 ≤ s) (hse : s ≤ e)
    (hst : s < total) :
    0 ≤ (clipWindow s e total).1 ∧
    (clipWindow s e total).1 < (clipWindow s e total).2 ∧
    (clipWindow s e total).2 ≤ total := by
  simp only [clipWindow, Int.min_def]
  split_ifs <;> refine ⟨?_, ?_, ?_⟩ <;> simp only [] <;> omega

/-- C4 witness: the amended bounds at segment `{start:5000, end:6000}` with
total duration `6200`. -/
theorem clipWindow_bounds_witness :
    0 ≤ (clipWindow 5000 6000 6200).1 ∧
    (clipWindow 5000 6000 6200).1 < (clipWindow 5000 6000 6200).2 ∧
    (clipWindow 5000 6000 6200).2 ≤ 6200 :=
  clipWindow_bounds 5000 6000 6200 (by decide) (by decide) (by decide)

/-! ## Claim C7: fade shaping -/

/-- C7: the rendered clip gets a 1000 ms fade-in exactly when the window
used pre-roll (`start_ms ≥ 1000`), and always gets a single 1000 ms
fade-out. -/
theorem fade_shaping :
    ∀ (start_ms end_ms audio_len : Int) (sp : ℚ),
      fadeInDurs (buildClip start_ms end_ms audio_len sp) =
        (if 1000 ≤ start_ms then [1000] else []) ∧
      fadeOutDurs (buildClip start_ms end_ms audio_len sp) = [1000] := by
  intro s e t sp
  unfold buildClip
  split_ifs <;> simp [fadeInDurs, fadeOutDurs]

/-! ## Claim C8: marker tone -/

/-- C8 counterexample: with the whole configuration surface at its default
(all speed flags unset, hence speed factor 1.0, and no marker-tone flag
exists to set), the built clip still contains the 50 ms 1000 Hz tones, so
"with markerTone unset no tone is added" is false of the code. -/
theorem marker_tone_counterexample :
    toneList (buildClip 5000 6000 10000 (speed_factor false false false)) ≠ [] := by
  norm_num [buildClip, speed_factor, toneList]
  simp

/-- C8 (amended): the 50 ms 1000 Hz click tone is unconditionally prepended
and appended to the faded clip, for every segment and every speed factor;
the code has no marker-tone option. -/
theorem marker_tone_always :
    ∀ (start_ms end_ms audio_len : Int) (sp : ℚ),
      toneList (buildClip start_ms end_ms audio_len sp) = [(1000, 50), (1000, 50)] ∧
      ∃ faded, stripStretch (buildClip start_ms end_ms audio_len sp) =
          Clip.app (Clip.app (Clip.tone 1000 50) faded) (Clip.tone 1000 50) ∧
        toneList faded = [] := by
  intro s e t sp
  simp only [buildClip]
  split_ifs <;> exact ⟨rfl, _, rfl, rfl⟩

/-! ## Claim C10: speed factor precedence -/

/-- C10: the speed factor follows the fixed precedence
slowest → 0.25, then slower → 0.5, then slow → 0.75, else 1.0, and for
every combination of the three flags it equals the smallest requested
factor (1.0 when none is requested). -/
theorem speed_factor_precedence :
    ∀ slow slower slowest : Bool,
      speed_factor slow slower slowest =
        (if slowest then 0.25 else if slower then 0.5 else if slow then 0.75 else 1.0) ∧
      speed_factor slow slower slowest =
        (requestedFactors slow slower slowest).foldr min 1.0 := by
  intro slow slower slowest
  cases slow <;> cases slower <;> cases slowest <;>
    refine ⟨rfl, ?_⟩ <;> simp [speed_factor, requestedFactors] <;> norm_num [min_def]

/-! ## Store and pipeline lemmas -/


lemma lookup_append_singleton_isSome (dir : Dir) (fn : String) (data : List Nat) :
    ((dir ++ [(fn, data)]).lookup fn).isSome = true := by
  induction dir with
  | nil => simp [List.lookup]
  | cons p d ih =>
    rcases p with ⟨a, b⟩
    by_cases h : fn = a
    · simp [List.lookup, h]
    · simp only [List.cons_append, List.lookup, beq_false_of_ne h]
      exact ih

lemma lookup_isSome_mem {dir : Dir} {fn : String}
    (h : (dir.lookup fn).isSome = true) : fn ∈ dir.map Prod.fst := by
  induction dir with
  | nil => simp [List.lookup] at h
  | cons p d ih =>
    rcases p with ⟨a, b⟩
    by_cases hfa : fn = a
    · simp [hfa]
    · simp only [List.lookup, beq_false_of_ne hfa] at h
      simp only [List.map_cons]
      exact List.mem_cons_of_mem _ (ih h)

lemma store_fst (md5 : List Nat → Nat) (data : List Nat) (dir : Dir) :
    (store md5 data dir).1 = clipFilename md5 data := by
  simp only [store]
  split <;> rfl

lemma store_lookup_isSome (md5 : List Nat → Nat) (data : List Nat) (dir : Dir) :
    (((store md5 data dir).2).lookup (clipFilename md5 data)).isSome = true := by
  simp only [store]
  split
  · assumption
  · exact lookup_append_singleton_isSome dir _ data

lemma store_stable (md5 : List Nat → Nat) (data : List Nat) (dir : Dir)
    (h : (dir.lookup (clipFilename md5 data)).isSome = true) :
    store md5 data dir = (clipFilename md5 data, dir) := by
  simp only [store]
  split
  · rfl
  · simp_all

lemma store_length (md5 : List Nat → Nat) (data : List Nat) (dir : Dir) :
    (store md5 data dir).2.length ≤ dir.length + 1 := by
  simp only [store]
  split <;> simp

lemma hexChar_mem : ∀ m, m < 16 → hexChar m ∈ hexAlphabet := by
  decide

lemma hexChars_mem : ∀ (k n : Nat), ∀ c ∈ hexChars k n, c ∈ hexAlphabet := by
  intro k
  induction k with
  | zero => simp [hexChars]
  | succ k ih =>
    intro n c hc
    rcases List.mem_append.1 hc with h | h
    · exact ih _ c h
    · rcases List.mem_singleton.1 h with rfl
      exact hexChar_mem _ (Nat.mod_lt _ (by norm_num))

lemma step_parsed (md5 : List Nat → Nat) (render : Int → Int → List Nat)
    (st : PState) {row : Fragment (List Char)} {s e : Int}
    (hs : parseTime row.start = some s) (he : parseTime row.end_ = some e) :
    step md5 render st row =
      ⟨(store md5 (render s e) st.dir).2,
        st.notes ++ [mkNote (clipFilename md5 (render s e)) row.text]⟩ := by
  simp [step, hs, he, store_fst]

/-! ## Claim C2: content-addressed idempotent store -/

/-- C2: storing is content-addressed and idempotent.  The filename returned
for given bytes is always `clip_<32 lowercase hex digits of the digest>.mp3`
independent of the directory state; a second store of the same bytes (over
any state that already went through one store, hence also across runs)
returns the same filename and leaves the directory untouched, so the file
count cannot increase; and two segment-loop iterations whose rendered clips
are byte-identical add at most one file (whose name both notes reference). -/
theorem store_content_addressed_idempotent
    (md5 : List Nat → Nat) (render : Int → Int → List Nat)
    (ra rb : Fragment (List Char)) (sa ea sb eb : Int) (st : PState)
    (hra : parseTime ra.start = some sa) (hrae : parseTime ra.end_ = some ea)
    (hrb : parseTime rb.start = some sb) (hrbe : parseTime rb.end_ = some eb)
    (heq : render sa ea = render sb eb) :
    (∀ (data : List Nat) (dir : Dir),
      (store md5 data dir).1 = "clip_" ++ hexdigest (md5 data) ++ ".mp3") ∧
    (∀ c ∈ (hexdigest (md5 (render sa ea))).data, c ∈ hexAlphabet) ∧
    (∀ (data : List Nat) (dir : Dir),
      store md5 data ((store md5 data dir).2) =
        ((store md5 data dir).1, (store md5 data dir).2)) ∧
    (∀ (data : List Nat) (dir : Dir),
      (store md5 data ((store md5 data dir).2)).2.length =
        (store md5 data dir).2.length) ∧
    ((step md5 render (step md5 render st ra) rb).dir =
        (step md5 render st ra).dir ∧
      (step md5 render st ra).dir.length ≤ st.dir.length + 1 ∧
      clipFilename md5 (render sa ea) ∈ (step md5 render st ra).dir.map Prod.fst ∧
      (step md5 render (step md5 render st ra) rb).notes =
        st.notes ++ [mkNote (clipFilename md5 (render sa ea)) ra.text,
                     mkNote (clipFilename md5 (render sa ea)) rb.text]) := by
  have hsecond : ∀ (data : List Nat) (dir : Dir),
      store md5 data ((store md5 data dir).2) =
        ((store md5 data dir).1, (store md5 data dir).2) := by
    intro data dir
    rw [store_stable md5 data _ (store_lookup_isSome md5 data dir), store_fst]
  have hstep1 := step_parsed md5 render st hra hrae
  have hstep2 :
      step md5 render
          ⟨(store md5 (render sa ea) st.dir).2,
            st.notes ++ [mkNote (clipFilename md5 (render sa ea)) ra.text]⟩ rb =
        ⟨(store md5 (render sa ea) st.dir).2,
          st.notes ++ [mkNote (clipFilename md5 (render sa ea)) ra.text,
                       mkNote (clipFilename md5 (render sa ea)) rb.text]⟩ := by
    rw [step_parsed md5 render _ hrb hrbe, ← heq,
      store_stable md5 (render sa ea) _ (store_lookup_isSome md5 (render sa ea) st.dir)]
    simp
  refine ⟨fun data dir => by rw [store_fst md5 data dir]; rfl,
      fun c hc => hexChars_mem 32 _ c hc, hsecond,
      fun data dir => by rw [hsecond], ?_, ?_, ?_, ?_⟩
  · rw [hstep1, hstep2]
  · rw [hstep1]
    exact store_length md5 (render sa ea) st.dir
  · rw [hstep1]
    exact lookup_isSome_mem (store_lookup_isSome md5 (render sa ea) st.dir)
  · rw [hstep1, hstep2]

/-- C2 witness: the idempotence statement applied to two concrete rows whose
(abstracted) rendered bytes coincide, over the empty starting state. -/
theorem store_content_addressed_idempotent_witness :
    (∀ (data : List Nat) (dir : Dir),
      (store (fun _ => 5) data dir).1 =
        "clip_" ++ hexdigest ((fun (_ : List Nat) => 5) data) ++ ".mp3") ∧
    (∀ c ∈ (hexdigest ((fun (_ : List Nat) => 5) ((fun (_ _ : Int) => [7]) 0 1))).data,
      c ∈ hexAlphabet) ∧
    (∀ (data : List Nat) (dir : Dir),
      store (fun _ => 5) data ((store (fun _ => 5) data dir).2) =
        ((store (fun _ => 5) data dir).1, (store (fun _ => 5) data dir).2)) ∧
    (∀ (data : List Nat) (dir : Dir),
      (store (fun _ => 5) data ((store (fun _ => 5) data dir).2)).2.length =
        (store (fun _ => 5) data dir).2.length) ∧
    ((step (fun _ => 5) (fun _ _ => [7])
          (step (fun _ => 5) (fun _ _ => [7]) ⟨[], []⟩ ⟨['0'], ['1'], ['x']⟩)
          ⟨['2'], ['3'], ['y']⟩).dir =
        (step (fun _ => 5) (fun _ _ => [7]) ⟨[], []⟩ ⟨['0'], ['1'], ['x']⟩).dir ∧
      (step (fun _ => 5) (fun _ _ => [7]) ⟨[], []⟩ ⟨['0'], ['1'], ['x']⟩).dir.length ≤
        (⟨[], []⟩ : PState).dir.length + 1 ∧
      clipFilename (fun _ => 5) ((fun (_ _ : Int) => [7]) 0 1) ∈
        (step (fun _ => 5) (fun _ _ => [7]) ⟨[], []⟩ ⟨['0'], ['1'], ['x']⟩).dir.map Prod.fst ∧
      (step (fun _ => 5) (fun _ _ => [7])
          (step (fun _ => 5) (fun _ _ => [7]) ⟨[], []⟩ ⟨['0'], ['1'], ['x']⟩)
          ⟨['2'], ['3'], ['y']⟩).notes =
        (⟨[], []⟩ : PState).notes ++
          [mkNote (clipFilename (fun _ => 5) ((fun (_ _ : Int) => [7]) 0 1)) ['x'],
           mkNote (clipFilename (fun _ => 5) ((fun (_ _ : Int) => [7]) 0 1)) ['y']]) :=
  store_content_addressed_idempotent (fun _ => 5) (fun _ _ => [7])
    ⟨['0'], ['1'], ['x']⟩ ⟨['2'], ['3'], ['y']⟩ 0 1 2 3 ⟨[], []⟩
    (by decide) (by decide) (by decide) (by decide) rfl

/-! ## Claim C5: invalid timing handling -/

/-- C5 counterexample: the start field `"-500"` is numeric but negative, so
by the claim the segment should fail with `InvalidTimingError` and be
skipped; the code parses it successfully (`int(float("-500")) = -500`) and
processes the segment, appending its note. -/
theorem invalid_timing_counterexample :
    parseTime ['-', '5', '0', '0'] = some (-500) ∧
    (step (fun _ => 0) (fun _ _ => [])
        ⟨[], []⟩ ⟨['-', '5', '0', '0'], ['0'], ['t']⟩).notes ≠ [] := by
  constructor
  · decide
  · decide

/-- C5 (amended): a segment is skipped — state unchanged, all other
segments processed exactly as without it — precisely when its start or end
is not numeric (`ValueError` in `int(float(...))`); any numeric value,
including a negative one, is accepted, and a parse failure in one row never
affects the processing of the surrounding rows. -/
theorem invalid_timing_skip (md5 : List Nat → Nat) (render : Int → Int → List Nat)
    (r : Fragment (List Char)) (st : PState)
    (pre post : List (Fragment (List Char))) (st0 : PState)
    (hbad : parseTime r.start = none ∨ parseTime r.end_ = none) :
    step md5 render st r = st ∧
    processRows md5 render (pre ++ r :: post) st0 =
      processRows md5 render (pre ++ post) st0 ∧
    (∀ (r' : Fragment (List Char)) (s e : Int) (st' : PState),
      parseTime r'.start = some s → parseTime r'.end_ = some e →
      step md5 render st' r' =
        ⟨(store md5 (render s e) st'.dir).2,
          st'.notes ++ [mkNote (clipFilename md5 (render s e)) r'.text]⟩) := by
  have hskip : ∀ st' : PState, step md5 render st' r = st' := by
    intro st'
    rcases hbad with h | h
    · simp [step, h]
    · rcases hs : parseTime r.start with _ | s <;> simp [step, hs, h]
  refine ⟨hskip st, ?_, fun r' s e st' hs he => step_parsed md5 render st' hs he⟩
  unfold processRows
  rw [List.foldl_append, List.foldl_append, List.foldl_cons, hskip]

/-- C5 witness: the amended statement at a concrete non-numeric row
(start `"x"`), concrete surrounding rows and initial state. -/
theorem invalid_timing_skip_witness :
    step (fun _ => 0) (fun _ _ => []) ⟨[], []⟩ ⟨['x'], ['0'], ['t']⟩ = ⟨[], []⟩ ∧
    processRows (fun _ => 0) (fun _ _ => [])
        ([] ++ ⟨['x'], ['0'], ['t']⟩ :: []) ⟨[], []⟩ =
      processRows (fun _ => 0) (fun _ _ => []) ([] ++ []) ⟨[], []⟩ ∧
    (∀ (r' : Fragment (List Char)) (s e : Int) (st' : PState),
      parseTime r'.start = some s → parseTime r'.end_ = some e →
      step (fun _ => 0) (fun _ _ => []) st' r' =
        ⟨(store (fun _ => 0) ((fun (_ _ : Int) => []) s e) st'.dir).2,
          st'.notes ++
            [mkNote (clipFilename (fun _ => 0) ((fun (_ _ : Int) => []) s e)) r'.text]⟩) :=
  invalid_timing_skip (fun _ => 0) (fun _ _ => []) ⟨['x'], ['0'], ['t']⟩ ⟨[], []⟩
    [] [] ⟨[], []⟩ (Or.inl (by decide))

/-! ## Claim C9: media file list and note order -/

lemma mem_keys_lookup_isSome {dir : Dir} {fn : String}
    (h : fn ∈ dir.map Prod.fst) : (dir.lookup fn).isSome = true := by
  induction dir with
  | nil => simp at h
  | cons p d ih =>
    rcases p with ⟨a, b⟩
    by_cases hfa : fn = a
    · simp [List.lookup, hfa]
    · simp only [List.map_cons, List.mem_cons] at h
      rcases h with h | h
      · exact absurd h hfa
      · simp only [List.lookup, beq_false_of_ne hfa]
        exact ih h

lemma store_dir_suffix (md5 : List Nat → Nat) (data : List Nat) (dir : Dir) :
    ∃ tail, (store md5 data dir).2 = dir ++ tail := by
  simp only [store]
  split
  · exact ⟨[], by simp⟩
  · exact ⟨[(clipFilename md5 data, data)], rfl⟩

lemma store_dir_nodup (md5 : List Nat → Nat) (data : List Nat) (dir : Dir)
    (h : (dir.map Prod.fst).Nodup) :
    ((store md5 data dir).2.map Prod.fst).Nodup := by
  simp only [store]
  split
  · exact h
  · rename_i hns
    have hnm : clipFilename md5 data ∉ dir.map Prod.fst := fun hm => hns (mem_keys_lookup_isSome hm)
    simp [List.nodup_append, h, hnm]

lemma step_dir_suffix (md5 : List Nat → Nat) (render : Int → Int → List Nat)
    (st : PState) (row : Fragment (List Char)) :
    ∃ tail, (step md5 render st row).dir = st.dir ++ tail := by
  rcases hs : parseTime row.start with _ | s
  · exact ⟨[], by simp [step, hs]⟩
  rcases he : parseTime row.end_ with _ | e
  · exact ⟨[], by simp [step, hs, he]⟩
  · rw [step_parsed md5 render st hs he]
    exact store_dir_suffix md5 (render s e) st.dir

lemma step_dir_nodup (md5 : List Nat → Nat) (render : Int → Int → List Nat)
    (st : PState) (row : Fragment (List Char))
    (h : (st.dir.map Prod.fst).Nodup) :
    ((step md5 render st row).dir.map Prod.fst).Nodup := by
  rcases hs : parseTime row.start with _ | s
  · simpa [step, hs] using h
  rcases he : parseTime row.end_ with _ | e
  · simpa [step, hs, he] using h
  · rw [step_parsed md5 render st hs he]
    exact store_dir_nodup md5 (render s e) st.dir h

lemma processRows_dir_suffix (md5 : List Nat → Nat) (render : Int → Int → List Nat)
    (rows : List (Fragment (List Char))) (st : PState) :
    ∃ tail, (processRows md5 render rows st).dir = st.dir ++ tail := by
  induction rows generalizing st with
  | nil => exact ⟨[], by simp [processRows]⟩
  | cons r rows ih =>
    obtain ⟨t1, h1⟩ := step_dir_suffix md5 render st r
    obtain ⟨t2, h2⟩ := ih (step md5 render st r)
    exact ⟨t1 ++ t2, by
      simp only [processRows, List.foldl_cons] at h2 ⊢
      rw [h2, h1, List.append_assoc]⟩

lemma processRows_dir_nodup (md5 : List Nat → Nat) (render : Int → Int → List Nat)
    (rows : List (Fragment (List Char))) (st : PState)
    (h : (st.dir.map Prod.fst).Nodup) :
    ((processRows md5 render rows st).dir.map Prod.fst).Nodup := by
  induction rows generalizing st with
  | nil => simpa [processRows] using h
  | cons r rows ih =>
    simp only [processRows, List.foldl_cons]
    exact ih (step md5 render st r) (step_dir_nodup md5 render st r h)

lemma step_notes_eq (md5 : List Nat → Nat) (render : Int → Int → List Nat)
    (st : PState) (row : Fragment (List Char)) :
    (step md5 render st row).notes = st.notes ++ (noteOf md5 render row).toList := by
  rcases hs : parseTime row.start with _ | s
  · simp [step, noteOf, hs]
  rcases he : parseTime row.end_ with _ | e
  · simp [step, noteOf, hs, he]
  · rw [step_parsed md5 render st hs he]
    simp [noteOf, hs, he]

lemma processRows_notes (md5 : List Nat → Nat) (render : Int → Int → List Nat)
    (rows : List (Fragment (List Char))) (st : PState) :
    (processRows md5 render rows st).notes =
      st.notes ++ rows.filterMap (noteOf md5 render) := by
  induction rows generalizing st with
  | nil => simp [processRows]
  | cons r rows ih =>
    simp only [processRows, List.foldl_cons] at ih ⊢
    rw [ih (step md5 render st r), step_notes_eq, List.filterMap_cons]
    rcases noteOf md5 render r with _ | n <;> simp

/-- C9: after processing all rows, the media list consists of every `.mp3`
file name in the clip directory — including files already present before the
run — sorted and without duplicates, each joined with the directory path;
and the notes are exactly the initial notes followed by one note per
successfully parsed row, in the original row order. -/
theorem deck_media_and_note_order (md5 : List Nat → Nat)
    (render : Int → Int → List Nat) (audio_dir : String)
    (rows : List (Fragment (List Char))) (st0 : PState)
    (hnd : (st0.dir.map Prod.fst).Nodup) :
    media_files audio_dir (processRows md5 render rows st0).dir =
      (sortedMp3Names (processRows md5 render rows st0).dir).map
        (fun f => audio_dir ++ "/" ++ f) ∧
    List.Pairwise (· ≤ ·) (sortedMp3Names (processRows md5 render rows st0).dir) ∧
    (sortedMp3Names (processRows md5 render rows st0).dir).Nodup ∧
    (∀ fn, fn ∈ sortedMp3Names (processRows md5 render rows st0).dir ↔
      fn ∈ (processRows md5 render rows st0).dir.map Prod.fst ∧
        fn.endsWith ".mp3" = true) ∧
    (∀ fn ∈ st0.dir.map Prod.fst,
      fn ∈ (processRows md5 render rows st0).dir.map Prod.fst) ∧
    (processRows md5 render rows st0).notes =
      st0.notes ++ rows.filterMap (noteOf md5 render) := by
  have hperm := List.perm_insertionSort (α := String) (· ≤ ·)
    ((processRows md5 render rows st0).dir.map Prod.fst)
  refine ⟨rfl, ?_, ?_, ?_, ?_, processRows_notes md5 render rows st0⟩
  · exact List.Pairwise.filter _
      (List.sorted_insertionSort (· ≤ ·) ((processRows md5 render rows st0).dir.map Prod.fst))
  · exact List.Nodup.filter _
      (hperm.symm.nodup (processRows_dir_nodup md5 render rows st0 hnd))
  · intro fn
    rw [sortedMp3Names, List.mem_filter, hperm.mem_iff]
  · intro fn hfn
    obtain ⟨tail, htail⟩ := processRows_dir_suffix md5 render rows st0
    rw [htail, List.map_append]
    exact List.mem_append_left _ hfn

/-- C9 witness: the media/notes statement at one concrete parsed row over an
empty initial state. -/
theorem deck_media_and_note_order_witness :
    media_files "clips"
        (processRows (fun _ => 0) (fun _ _ => []) [⟨['0'], ['1'], ['a']⟩] ⟨[], []⟩).dir =
      (sortedMp3Names
          (processRows (fun _ => 0) (fun _ _ => []) [⟨['0'], ['1'], ['a']⟩] ⟨[], []⟩).dir).map
        (fun f => "clips" ++ "/" ++ f) ∧
    List.Pairwise (· ≤ ·)
      (sortedMp3Names
        (processRows (fun _ => 0) (fun _ _ => []) [⟨['0'], ['1'], ['a']⟩] ⟨[], []⟩).dir) ∧
    (sortedMp3Names
      (processRows (fun _ => 0) (fun _ _ => []) [⟨['0'], ['1'], ['a']⟩] ⟨[], []⟩).dir).Nodup ∧
    (∀ fn, fn ∈ sortedMp3Names
        (processRows (fun _ => 0) (fun _ _ => []) [⟨['0'], ['1'], ['a']⟩] ⟨[], []⟩).dir ↔
      fn ∈ (processRows (fun _ => 0) (fun _ _ => [])
          [⟨['0'], ['1'], ['a']⟩] ⟨[], []⟩).dir.map Prod.fst ∧
        fn.endsWith ".mp3" = true) ∧
    (∀ fn ∈ ((⟨[], []⟩ : PState)).dir.map Prod.fst,
      fn ∈ (processRows (fun _ => 0) (fun _ _ => [])
        [⟨['0'], ['1'], ['a']⟩] ⟨[], []⟩).dir.map Prod.fst) ∧
    (processRows (fun _ => 0) (fun _ _ => []) [⟨['0'], ['1'], ['a']⟩] ⟨[], []⟩).notes =
      (⟨[], []⟩ : PState).notes ++
        [⟨['0'], ['1'], ['a']⟩].filterMap (noteOf (fun _ => 0) (fun _ _ => [])) :=
  deck_media_and_note_order (fun _ => 0) (fun _ _ => []) "clips"
    [⟨['0'], ['1'], ['a']⟩] ⟨[], []⟩ (by decide)

/-! ## String lemmas for the merge pass -/

lemma dropWhile_dropWhile {α : Type} (p : α → Bool) (l : List α) :
    (l.dropWhile p).dropWhile p = l.dropWhile p := by
  induction l with
  | nil => simp
  | cons a l ih =>
    by_cases h : p a
    · simp [List.dropWhile_cons, h, ih]
    · simp [List.dropWhile_cons, h]

lemma dropWhile_head_false {α : Type} (p : α → Bool) (l : List α) {a : α}
    (h : (l.dropWhile p).head? = some a) : p a = false := by
  induction l with
  | nil => simp at h
  | cons x xs ih =>
    rw [List.dropWhile_cons] at h
    by_cases hx : p x
    · rw [if_pos hx] at h
      exact ih h
    · rw [if_neg hx, List.head?_cons, Option.some_inj] at h
      subst h
      exact Bool.not_eq_true _ ▸ by simpa using hx

lemma head?_dropWhile_reverse_lstrip (s : List Char) :
    ((s.dropWhile Char.isWhitespace).reverse.dropWhile Char.isWhitespace).head? =
      (s.reverse.dropWhile Char.isWhitespace).head? := by
  rcases hd : s.dropWhile Char.isWhitespace with _ | ⟨a, d⟩
  · have hall : ∀ c ∈ s, Char.isWhitespace c = true := List.dropWhile_eq_nil_iff.1 hd
    have hrev : s.reverse.dropWhile Char.isWhitespace = [] :=
      List.dropWhile_eq_nil_iff.2 (fun c hc => hall c (List.mem_reverse.1 hc))
    simp [hrev]
  · have hsplit : s.takeWhile Char.isWhitespace ++ (a :: d) = s := by
      rw [← hd]; exact List.takeWhile_append_dropWhile ..
    have ha : Char.isWhitespace a = false :=
      dropWhile_head_false _ s (by rw [hd]; rfl)
    have hrev : s.reverse = (a :: d).reverse ++ (s.takeWhile Char.isWhitespace).reverse := by
      conv_lhs => rw [← hsplit]
      rw [List.reverse_append]
    have hne : (a :: d).reverse.dropWhile Char.isWhitespace ≠ [] := by
      intro hnil
      have := List.dropWhile_eq_nil_iff.1 hnil a (by simp)
      simp [ha] at this
    obtain ⟨b, bs, hb⟩ := List.exists_cons_of_ne_nil hne
    rw [hrev, List.dropWhile_append, hb]
    simp [List.head?_cons]

lemma getLast?_strip (s : List Char) :
    (strip s).getLast? = (s.reverse.dropWhile Char.isWhitespace).head? := by
  unfold strip rstrip lstrip
  rw [List.getLast?_reverse]
  exact head?_dropWhile_reverse_lstrip s

lemma strip_reverse_dropWhile (s : List Char) :
    (strip s).reverse.dropWhile Char.isWhitespace = (strip s).reverse := by
  unfold strip rstrip lstrip
  rw [List.reverse_reverse]
  exact dropWhile_dropWhile _ _

lemma getLast?_strip_strip (s : List Char) :
    (strip (strip s)).getLast? = (strip s).getLast? := by
  rw [getLast?_strip (strip s), strip_reverse_dropWhile, List.head?_reverse]

lemma is_complete_sentence_strip (s : List Char) :
    is_complete_sentence (strip s) = is_complete_sentence s := by
  unfold is_complete_sentence sentenceEnd
  rw [getLast?_strip_strip]

lemma getLast?_strip_append (a t : List Char)
    (ht : t.reverse.dropWhile Char.isWhitespace = t.reverse) :
    (strip (a ++ ' ' :: t)).getLast? =
      if t.isEmpty then (strip a).getLast? else t.getLast? := by
  rw [getLast?_strip]
  have hrev : (a ++ ' ' :: t).reverse = t.reverse ++ ' ' :: a.reverse := by
    rw [List.reverse_append, List.reverse_cons, List.append_assoc]
    rfl
  rw [hrev]
  cases t with
  | nil =>
    simp only [List.reverse_nil, List.nil_append, List.isEmpty_nil, if_true]
    rw [List.dropWhile_cons, if_pos (by decide), ← getLast?_strip]
  | cons c cs =>
    have hne : (c :: cs).reverse ≠ [] := by simp
    obtain ⟨b, bs, hb⟩ := List.exists_cons_of_ne_nil hne
    rw [List.dropWhile_append, ht, hb]
    simp only [List.isEmpty_cons, Bool.false_eq_true, if_false, List.cons_append,
      List.head?_cons]
    rw [List.getLast?_eq_head?_reverse, hb, List.head?_cons]

/-! ## Merge pass lemmas -/

lemma is_complete_sentence_append (a u : List Char)
    (ha : is_complete_sentence a = false) (hu : is_complete_sentence u = false) :
    is_complete_sentence (a ++ ' ' :: strip u) = false := by
  unfold is_complete_sentence sentenceEnd at *
  rw [getLast?_strip_append a (strip u) (strip_reverse_dropWhile u)]
  by_cases h : (strip u).isEmpty
  · rw [if_pos h]
    exact ha
  · rw [if_neg h]
    exact hu

lemma mergeRun_spec {τ : Type} (acc : Fragment τ) (l : List (Fragment τ)) :
    ∃ taken rest,
      l = taken ++ rest ∧
      (mergeRun acc l).2 = rest ∧
      (mergeRun acc l).1.start = acc.start ∧
      (mergeRun acc l).1.end_ = (taken.map (fun f => f.end_)).getLastD acc.end_ ∧
      (mergeRun acc l).1.text =
        (taken.map (fun f => strip f.text)).foldl (fun a u => a ++ ' ' :: u) acc.text := by
  induction l generalizing acc with
  | nil => exact ⟨[], [], by simp [mergeRun]⟩
  | cons next rest ih =>
    by_cases h : is_complete_sentence acc.text
    · exact ⟨[], next :: rest, by simp [mergeRun, h]⟩
    · obtain ⟨tk, rs, h1, h2, h3, h4, h5⟩ :=
        ih ⟨acc.start, next.end_, acc.text ++ ' ' :: strip next.text⟩
      refine ⟨next :: tk, rs, ?_, ?_, ?_, ?_, ?_⟩
      · rw [List.cons_append, ← h1]
      · simp only [mergeRun, if_neg h]
        exact h2
      · simp only [mergeRun, if_neg h]
        exact h3
      · simp only [mergeRun, if_neg h, List.map_cons, List.getLastD_cons]
        exact h4
      · simp only [mergeRun, if_neg h, List.map_cons, List.foldl_cons]
        exact h5

lemma getLastD_map_end {τ : Type} (f : Fragment τ) (l : List (Fragment τ)) :
    ∃ fz, (f :: l).getLast? = some fz ∧
      (l.map (fun g => g.end_)).getLastD f.end_ = fz.end_ := by
  induction l generalizing f with
  | nil => exact ⟨f, rfl, rfl⟩
  | cons g l ih =>
    obtain ⟨fz, h1, h2⟩ := ih g
    refine ⟨fz, ?_, ?_⟩
    · rw [List.getLast?_cons_cons]
      exact h1
    · rw [List.map_cons, List.getLastD_cons]
      exact h2

lemma merge_runs {τ : Type} (frags : List (Fragment τ)) :
    ∃ runs : List (List (Fragment τ)),
      runs.flatten = frags ∧ List.Forall₂ runSpec (merge frags) runs := by
  suffices h : ∀ (n : Nat) (l : List (Fragment τ)), l.length = n →
      ∃ runs : List (List (Fragment τ)),
        runs.flatten = l ∧ List.Forall₂ runSpec (merge l) runs by
    exact h frags.length frags rfl
  intro n
  induction n using Nat.strong_induction_on with
  | _ n ih =>
    intro l hn
    rcases l with _ | ⟨f, rest⟩
    · exact ⟨[], by simp [merge]⟩
    · obtain ⟨tk, rs, h1, h2, h3, h4, h5⟩ :=
        mergeRun_spec ⟨f.start, f.end_, strip f.text⟩ rest
      have hlt : rs.length < n := by
        subst hn
        rw [h1]
        simp only [List.length_cons, List.length_append]
        omega
      obtain ⟨runs, hflat, hfa⟩ := ih rs.length hlt rs rfl
      refine ⟨(f :: tk) :: runs, ?_, ?_⟩
      · simp only [List.flatten_cons]
        rw [hflat, List.cons_append, ← h1]
      · rw [show merge (f :: rest) =
            (mergeRun ⟨f.start, f.end_, strip f.text⟩ rest).1 ::
              merge (mergeRun ⟨f.start, f.end_, strip f.text⟩ rest).2 from by rw [merge]]
        rw [h2]
        refine List.Forall₂.cons ?_ hfa
        obtain ⟨fz, hz1, hz2⟩ := getLastD_map_end f tk
        exact ⟨f, fz, List.head?_cons, hz1, h3, by rw [h4]; exact hz2,
          by rw [h5, List.map_cons, sepJoin]⟩

lemma mergeRun_all {τ : Type} (acc : Fragment τ) (l : List (Fragment τ))
    (hacc : is_complete_sentence acc.text = false)
    (hl : ∀ f ∈ l.dropLast, is_complete_sentence f.text = false) :
    mergeRun acc l =
      (⟨acc.start, (l.map (fun f => f.end_)).getLastD acc.end_,
        (l.map (fun f => strip f.text)).foldl (fun a u => a ++ ' ' :: u) acc.text⟩, []) := by
  induction l generalizing acc with
  | nil => simp [mergeRun]
  | cons next rest ih =>
    have hcond : ¬ (is_complete_sentence acc.text = true) := by simp [hacc]
    simp only [mergeRun, if_neg hcond]
    cases rest with
    | nil => simp [mergeRun, List.getLastD_cons]
    | cons g rest2 =>
      have hnext : is_complete_sentence next.text = false :=
        hl next (by rw [List.dropLast_cons₂]; exact List.mem_cons_self _ _)
      have hacc2 : is_complete_sentence (acc.text ++ ' ' :: strip next.text) = false :=
        is_complete_sentence_append _ _ hacc hnext
      have hrest : ∀ f ∈ (g :: rest2).dropLast, is_complete_sentence f.text = false :=
        fun f hf => hl f (by rw [List.dropLast_cons₂]; exact List.mem_cons_of_mem _ hf)
      rw [ih ⟨acc.start, next.end_, acc.text ++ ' ' :: strip next.text⟩ hacc2 hrest]
      simp only [List.map_cons, List.getLastD_cons, List.foldl_cons]

lemma mem_of_getLast?_eq {α : Type} {l : List α} {a : α}
    (h : l.getLast? = some a) : a ∈ l := by
  rw [List.getLast?_eq_head?_reverse] at h
  have hmem : a ∈ l.reverse := by
    cases hr : l.reverse with
    | nil => rw [hr] at h; simp at h
    | cons x xs =>
      rw [hr, List.head?_cons, Option.some_inj] at h
      subst h
      exact List.mem_cons_self _ _
  exact List.mem_reverse.1 hmem

lemma forall₂_and_right {α β : Type} {R : α → β → Prop} {P : β → Prop}
    {l₁ : List α} {l₂ : List β} (h : List.Forall₂ R l₁ l₂) :
    (∀ b ∈ l₂, P b) → List.Forall₂ (fun a b => R a b ∧ P b) l₁ l₂ := by
  induction h with
  | nil => exact fun _ => List.Forall₂.nil
  | cons hr ht ih =>
    intro hp
    exact List.Forall₂.cons ⟨hr, hp _ (List.mem_cons_self _ _)⟩
      (ih (fun b hb => hp b (List.mem_cons_of_mem _ hb)))

lemma runSpec_start_le_end {r : List (Fragment Int)} {s : Fragment Int}
    (hr : runSpec s r)
    (hpw : r.Pairwise (fun a b => a.start ≤ b.start))
    (hse : ∀ f ∈ r, f.start ≤ f.end_) : s.start ≤ s.end_ := by
  obtain ⟨f₀, fz, hh, hl, hs, he, _⟩ := hr
  rcases r with _ | ⟨x, t⟩
  · simp at hh
  · rw [List.head?_cons, Option.some_inj] at hh
    rcases t with _ | ⟨y, t2⟩
    · have hfz : x = fz := by simpa using hl
      rw [hs, he, ← hh, ← hfz]
      exact hse x (List.mem_cons_self _ _)
    · have hzl : (y :: t2).getLast? = some fz := by
        rw [← List.getLast?_cons_cons]
        exact hl
      have hmem : fz ∈ y :: t2 := mem_of_getLast?_eq hzl
      have hle : x.start ≤ fz.start := (List.pairwise_cons.1 hpw).1 fz hmem
      rw [hs, he, ← hh]
      exact hle.trans (hse fz (List.mem_cons_of_mem _ hmem))

lemma flatten_map_flatten {α β : Type} (g : α → List β) (L : List (List α)) :
    (L.map (fun r => (r.map g).flatten)).flatten = (L.flatten.map g).flatten := by
  induction L with
  | nil => simp
  | cons r L ih => simp [ih]

lemma merge_nil {τ : Type} : merge ([] : List (Fragment τ)) = [] := by
  rw [merge]

lemma merge_cons {τ : Type} (f : Fragment τ) (rest : List (Fragment τ)) :
    merge (f :: rest) =
      (mergeRun ⟨f.start, f.end_, strip f.text⟩ rest).1 ::
        merge (mergeRun ⟨f.start, f.end_, strip f.text⟩ rest).2 := by
  rw [merge]

/-! ## Claim C6: one run when no inner fragment terminates a sentence -/

/-- C6: given fragments none of whose texts is a complete sentence except
possibly the last, `merge` returns exactly one segment spanning all of them
(start from the first fragment, end from the last, text the space-joined
stripped texts); a trailing run that never reaches terminal punctuation is
still emitted, and the empty input yields the empty output. -/
theorem merge_single_segment (τ : Type) (frags : List (Fragment τ))
    (f₀ fz : Fragment τ)
    (h₀ : frags.head? = some f₀) (hz : frags.getLast? = some fz)
    (hmid : ∀ f ∈ frags.dropLast, is_complete_sentence f.text = false) :
    merge frags = [⟨f₀.start, fz.end_, sepJoin (frags.map (fun f => strip f.text))⟩] ∧
    merge ([] : List (Fragment τ)) = [] := by
  refine ⟨?_, by rw [merge]⟩
  cases frags with
  | nil => simp at h₀
  | cons f rest =>
    rw [List.head?_cons, Option.some_inj] at h₀
    cases rest with
    | nil =>
      have hfz : f = fz := by simpa using hz
      rw [merge_cons]
      simp only [mergeRun, merge_nil]
      rw [← h₀, ← hfz]
      simp [sepJoin]
    | cons g rest2 =>
      have hf : is_complete_sentence f.text = false :=
        hmid f (by rw [List.dropLast_cons₂]; exact List.mem_cons_self _ _)
      have hacc : is_complete_sentence (strip f.text) = false := by
        rw [is_complete_sentence_strip]
        exact hf
      have hrest : ∀ x ∈ (g :: rest2).dropLast, is_complete_sentence x.text = false :=
        fun x hx => hmid x (by rw [List.dropLast_cons₂]; exact List.mem_cons_of_mem _ hx)
      rw [merge_cons,
        mergeRun_all ⟨f.start, f.end_, strip f.text⟩ (g :: rest2) hacc hrest]
      obtain ⟨fz', hz1, hz2⟩ := getLastD_map_end f (g :: rest2)
      rw [hz1, Option.some_inj] at hz
      rw [merge_nil, ← h₀, ← hz, ← hz2]
      simp [sepJoin]

/-- C6 witness: two fragments, neither ending in terminal punctuation (the
trailing one included), merge into the single spanning segment; and the
empty input gives the empty output. -/
theorem merge_single_segment_witness :
    merge [(⟨0, 2000, ['H', 'e', 'i']⟩ : Fragment Int),
           ⟨2000, 4000, ['m', 'a', 'a', 'i', 'l', 'm', 'a']⟩] =
      [⟨0, 4000,
        sepJoin ([(⟨0, 2000, ['H', 'e', 'i']⟩ : Fragment Int),
                  ⟨2000, 4000, ['m', 'a', 'a', 'i', 'l', 'm', 'a']⟩].map
          (fun f => strip f.text))⟩] ∧
    merge ([] : List (Fragment Int)) = [] :=
  merge_single_segment Int
    [⟨0, 2000, ['H', 'e', 'i']⟩, ⟨2000, 4000, ['m', 'a', 'a', 'i', 'l', 'm', 'a']⟩]
    ⟨0, 2000, ['H', 'e', 'i']⟩ ⟨2000, 4000, ['m', 'a', 'a', 'i', 'l', 'm', 'a']⟩
    (by decide) (by decide) (by decide)

/-! ## Claim C1: merge preserves content and run boundaries -/

/-- C1 counterexample: the claim quantifies over every fragment sequence,
but for the (unordered) single fragment `{start:5, end:3, text:"a."}` the
emitted segment has `start = 5 > 3 = end`, so `start ≤ end` fails. -/
theorem merge_start_le_end_counterexample :
    merge [(⟨5, 3, ['a', '.']⟩ : Fragment Int)] = [⟨5, 3, ['a', '.']⟩] ∧
    ¬ ((5 : Int) ≤ 3) := by
  constructor
  · rw [merge_cons]
    simp only [mergeRun, merge_nil]
    decide
  · decide

/-- C1 (amended): for every fragment sequence whose fragments are
time-ordered (each fragment's start is at most its end, and starts are
non-decreasing), the merge output corresponds to a partition of the input
into contiguous runs: each segment takes its start from the first fragment
of its run, its end from the last, satisfies `start ≤ end`, and its text is
the space-joined stripped run texts — so concatenating all segment texts
with the inserted spaces removed gives exactly the concatenation of all
stripped fragment texts. -/
theorem merge_preserves_content (frags : List (Fragment Int))
    (hord : frags.Pairwise (fun a b => a.start ≤ b.start))
    (hse : ∀ f ∈ frags, f.start ≤ f.end_) :
    ∃ runs : List (List (Fragment Int)),
      runs.flatten = frags ∧
      List.Forall₂ (fun s r => runSpec s r ∧ s.start ≤ s.end_) (merge frags) runs ∧
      (runs.map (fun r => (r.map (fun f => strip f.text)).flatten)).flatten =
        (frags.map (fun f => strip f.text)).flatten := by
  obtain ⟨runs, hflat, hfa⟩ := merge_runs frags
  have hP : ∀ r ∈ runs,
      r.Pairwise (fun a b => a.start ≤ b.start) ∧ ∀ f ∈ r, f.start ≤ f.end_ := by
    intro r hr
    have hsub : r.Sublist frags := hflat ▸ List.sublist_flatten_of_mem hr
    exact ⟨List.Pairwise.sublist hsub hord, fun f hf => hse f (hsub.subset hf)⟩
  refine ⟨runs, hflat, ?_, by rw [flatten_map_flatten, hflat]⟩
  exact (forall₂_and_right hfa hP).imp
    (fun a b hx => ⟨hx.1, runSpec_start_le_end hx.1 hx.2.1 hx.2.2⟩)

/-- C1 witness: the amended statement at the spec's own two-fragment
scenario `[{0,2000,"Hei"}, {2000,4000,"maailma."}]`. -/
theorem merge_preserves_content_witness :
    ∃ runs : List (List (Fragment Int)),
      runs.flatten = [⟨0, 2000, ['H', 'e', 'i']⟩,
                      ⟨2000, 4000, ['m', 'a', 'a', 'i', 'l', 'm', 'a', '.']⟩] ∧
      List.Forall₂ (fun s r => runSpec s r ∧ s.start ≤ s.end_)
        (merge [⟨0, 2000, ['H', 'e', 'i']⟩,
                ⟨2000, 4000, ['m', 'a', 'a', 'i', 'l', 'm', 'a', '.']⟩]) runs ∧
      (runs.map (fun r => (r.map (fun f => strip f.text)).flatten)).flatten =
        ([(⟨0, 2000, ['H', 'e', 'i']⟩ : Fragment Int),
          ⟨2000, 4000, ['m', 'a', 'a', 'i', 'l', 'm', 'a', '.']⟩].map
            (fun f => strip f.text)).flatten :=
  merge_preserves_content
    [⟨0, 2000, ['H', 'e', 'i']⟩, ⟨2000, 4000, ['m', 'a', 'a', 'i', 'l', 'm', 'a', '.']⟩]
    (by decide) (by decide)
